import Mathlib

/-!
Verification of the CampaignIQ prototype pipeline
(`scoring.py`, `analysis.py`, `data_preparation.py`).

Conventions of the shallow embedding:
* Python floats are modelled as exact rationals (`ℚ`); `NaN` / missing
  cells are modelled as `none` in `Option ℚ`.
* A pandas `DataFrame` is a list of named columns together with a row
  count; a column carries its cells, a flag telling whether its dtype is
  one of `float64`/`int64`, and the outcome of `pd.to_numeric` on it.
* Fallible code paths are modelled with `Option`/`Except`.
-/

namespace CampaignIQ

/-- Python `int(q)` on a float: truncation toward zero.  For a reduced
rational `q = num/den` this is exactly integer T-division of `num` by
`den` (`Int.tdiv` rounds toward zero, matching CPython). -/
def pyInt (q : ℚ) : ℤ := q.num.tdiv (q.den : ℤ)

/-- Scoring-rule condition, from `scoring.py`.  In the source the
condition is a string: `'always'`, a string starting with `'>'` (with the
numeric threshold kept separately in `rule['threshold']`, which is the
value actually used for comparison), or `'present'`.  `other` stands for
any further string, which `apply_scoring_rules` skips. -/
inductive Cond where
  | always : Cond
  | gt : ℚ → Cond
  | present : Cond
  | other : String → Cond
deriving DecidableEq

/-- One scoring rule (a dict in `scoring.py`): the `'variable'`,
`'condition'` (with the `'threshold'` entry folded into `Cond.gt`) and
`'adjustment'` keys.  The `'description'` key is display-only and not
modelled. -/
structure SRule where
  varName : String
  cond : Cond
  adjustment : ℤ
deriving DecidableEq

/-- One DataFrame column: whether its dtype is `float64`/`int64`, whether
`pd.to_numeric` succeeds on it, and its cells (`none` = missing).  For a
non-numeric (object dtype) column the rational payload of a cell is not
meaningful; only its missingness is used by the code we model. -/
structure ColData where
  numeric : Bool
  toNumericOk : Bool
  cells : List (Option ℚ)
deriving DecidableEq

/-- A pandas DataFrame: an explicit row count and named columns. -/
structure DFrame where
  nrows : ℕ
  cols : List (String × ColData)
deriving DecidableEq

/-- Well-formedness: every column has exactly `nrows` cells. -/
def DFrame.wf (df : DFrame) : Bool :=
  df.cols.all (fun p => p.2.cells.length == df.nrows)

/-- Column lookup, modelling `df[v]` / `v in df.columns`. -/
def DFrame.col (df : DFrame) (v : String) : Option ColData :=
  (df.cols.find? (fun p => p.1 == v)).map Prod.snd

/-- The boolean mask computed by `apply_scoring_rules` for one rule on one
column (`scoring.py` lines 136-146): a `>` condition compares the cell to
the rule's threshold (`NaN > t` is false in pandas), a `present` condition
tests `== 1` on numeric-dtype columns and `notna()` otherwise; any other
condition is skipped (`none`). -/
def condMask (col : ColData) (c : Cond) : Option (List Bool) :=
  match c with
  | Cond.gt t =>
      some (col.cells.map (fun cell =>
        match cell with
        | some v => decide (t < v)
        | none => false))
  | Cond.present =>
      some (col.cells.map (fun cell =>
        if col.numeric then decide (cell = some (1 : ℚ)) else cell.isSome))
  | _ => none

/-- One iteration of the rule loop in `apply_scoring_rules` (`scoring.py`
lines 124-149): skip the `BASE` rule, skip rules whose column is absent,
skip unknown conditions, otherwise add the adjustment where the mask
holds. -/
def applyRule (df : DFrame) (scores : List ℤ) (r : SRule) : List ℤ :=
  if r.varName = "BASE" then scores
  else
    match df.col r.varName with
    | none => scores
    | some col =>
        match condMask col r.cond with
        | none => scores
        | some mask =>
            scores.zipWith (fun s m => if m then s + r.adjustment else s) mask

/-- `apply_scoring_rules(df, rules)` (`scoring.py` lines 106-151): find the
first `BASE` rule (`next(...)`, a `StopIteration` if there is none, hence
`Option`), start every row at its adjustment, then apply each rule. -/
def apply_scoring_rules (df : DFrame) (rules : List SRule) : Option (List ℤ) :=
  (rules.find? (fun r => r.varName == "BASE")).map
    (fun base => rules.foldl (applyRule df) (List.replicate df.nrows base.adjustment))

/-- Whether rule `r` fires on row `i` of `df`: `r` is not the base rule,
its column exists, and the row's cell satisfies the rule's predicate. -/
def hitAt (df : DFrame) (r : SRule) (i : ℕ) : Bool :=
  (!(r.varName == "BASE")) &&
    (match df.col r.varName with
     | none => false
     | some col =>
         match condMask col r.cond with
         | none => false
         | some mask => mask.getD i false)

/-- Minimum of a column, skipping missing cells: pandas `Series.min()`
(which ignores `NaN`); `none` when no value is present. -/
def pdMin (l : List (Option ℚ)) : Option ℚ :=
  match l.filterMap id with
  | [] => none
  | x :: xs => some (xs.foldl min x)

/-- Maximum of a column, skipping missing cells: pandas `Series.max()`. -/
def pdMax (l : List (Option ℚ)) : Option ℚ :=
  match l.filterMap id with
  | [] => none
  | x :: xs => some (xs.foldl max x)

/-- Per-variable configuration details, modelling the
`config['variable_details'][name]` dict as read by `generate_scoring_rules`:
the `'type'` entry (defaulting to `'categorical'` when the dict or the key
is absent) and the optional `'min'`/`'max'` keys of the `'range'` entry. -/
structure VarDetail where
  vtype : String
  rangeMin : Option ℚ
  rangeMax : Option ℚ
deriving DecidableEq

/-- `feature_name.split('_')[0]` (`scoring.py` line 46): the characters
before the first underscore (the whole name when it has none). -/
def varBase (name : String) : String :=
  String.mk (name.toList.takeWhile (fun c => !(c == '_')))

/-- Body of the per-feature loop of `generate_scoring_rules` (`scoring.py`
lines 38-102): features with `|coefficient| < 0.01` are skipped; the point
adjustment is Python `int(coefficient * 1000)` (truncation toward zero);
a numerical variable emits two threshold rules at 70% / 30% of the range
taken from the config `'range'` entry when present, otherwise from the
column's observed (NaN-skipping) min/max, with `int(adjustment * 0.7)` and
`int(adjustment * 0.3)` points; any other variable emits one `present`
rule (the two source branches for one-hot and plain names differ only in
the unmodelled description text).  Accessing a column absent from `df` in
the numerical branch is a `KeyError`, hence `Except`. -/
def processFeature (df : DFrame) (details : List (String × VarDetail))
    (name : String) (coef : ℚ) : Except String (List SRule) :=
  if |coef| < 1/100 then Except.ok []
  else
    let vd := ((details.find? (fun p => p.1 == varBase name)).map Prod.snd).getD
      ⟨"categorical", none, none⟩
    let adjustment := pyInt (coef * 1000)
    if vd.vtype = "numerical" then
      match df.col name with
      | none => Except.error "KeyError"
      | some col =>
          if col.cells.any (fun c => c.isSome) then
            let minVal := vd.rangeMin.getD ((pdMin col.cells).getD 0)
            let maxVal := vd.rangeMax.getD ((pdMax col.cells).getD 0)
            let highThreshold := minVal + 7/10 * (maxVal - minVal)
            let medThreshold := minVal + 3/10 * (maxVal - minVal)
            Except.ok
              [⟨name, Cond.gt highThreshold, pyInt ((adjustment : ℚ) * (7/10))⟩,
               ⟨name, Cond.gt medThreshold, pyInt ((adjustment : ℚ) * (3/10))⟩]
          else Except.ok []
    else if name.contains '_' then
      Except.ok [⟨name, Cond.present, adjustment⟩]
    else
      Except.ok [⟨name, Cond.present, adjustment⟩]

/-- `generate_scoring_rules(df, coefficients, feature_names, config)`
(`scoring.py` lines 5-104): the `BASE`/`always` rule with the base score,
then the per-feature rules in feature order.  `features` pairs each
feature name with its coefficient. -/
def generate_scoring_rules (df : DFrame) (features : List (String × ℚ))
    (details : List (String × VarDetail)) (base_score : ℤ) :
    Except String (List SRule) :=
  features.foldlM
    (fun rules p => (processFeature df details p.1 p.2).map (fun new => rules ++ new))
    [⟨"BASE", Cond.always, base_score⟩]

/-- Unique values of a list in order of first appearance: pandas
`Series.unique()` / `Categorical.unique()`. -/
def uniqueAppearance {α : Type} [DecidableEq α] (l : List α) : List α :=
  l.foldl (fun acc x => if x ∈ acc then acc else acc ++ [x]) []

/-- Number of rows assigned to decile `k`:
`pd.Series(y).groupby(deciles).count()` for category `k` (the target has
no missing values at this point, so `count` is the group size). -/
def binCount (d : List (Fin 10)) (k : Fin 10) : ℕ := d.count k

/-- Sum of the target over the rows assigned to decile `k`. -/
def binSum (y : List ℚ) (d : List (Fin 10)) (k : Fin 10) : ℚ :=
  (((d.zip y).filter (fun p => p.1 == k)).map Prod.snd).sum

/-- Mean of the target over the rows of decile `k`:
`pd.Series(y).groupby(deciles).mean()` for category `k`. -/
def binRate (y : List ℚ) (d : List (Fin 10)) (k : Fin 10) : ℚ :=
  binSum y d k / (binCount d k : ℚ)

/-- `baseline_rate = y.mean()` (`analysis.py` line 299). -/
def baselineRate (y : List ℚ) : ℚ := y.sum / (y.length : ℚ)

/-- One row of the `response_rates` table of `analysis.py` (the spec's
`DecileRecord`): the `decile` label is stored as `Fin 10`, with `k`
standing for the label string `D(k+1)`. -/
structure DecRecord where
  decile : Fin 10
  count : ℕ
  response_rate : ℚ
  lift : ℚ
deriving DecidableEq

/-- The `response_rates` table built in `run_analysis` (`analysis.py`
lines 292-300).  The `'decile'` column is the plain array
`deciles.unique()` — unique labels in order of first appearance — while
`'count'` and `'response_rate'` are Series indexed by the categories `D1`
… `D10` in category order; the DataFrame constructor aligns the two
Series on that index and assigns the plain array positionally, so row `k`
of the table holds the statistics of category `k` but the label
`unique()[k]`.  Pandas raises when the plain array's length differs from
the index length `10`, hence `Option`.  `'lift'` is the `'response_rate'`
column divided by the baseline rate.

`mkDecRecord y d k` is row `k` of that table; `response_rates` is the
whole table. -/
def mkDecRecord (y : List ℚ) (d : List (Fin 10)) (k : Fin 10) : DecRecord :=
  { decile := (uniqueAppearance d).getD k.val 0
    count := binCount d k
    response_rate := binRate y d k
    lift := binRate y d k / baselineRate y }

def response_rates (y : List ℚ) (d : List (Fin 10)) : Option (List DecRecord) :=
  if (uniqueAppearance d).length = 10 then
    some ((List.finRange 10).map (mkDecRecord y d))
  else none

/-- The in-memory object returned by `run_analysis` on success or failure
(`analysis.py` lines 332-341 and 361-364).  The feature-importance list
and the human-readable rule strings are not modelled. -/
structure AnalysisResult where
  success : Bool
  metrics : List (String × ℚ)
  scoringRules : List SRule
  responseRates : List DecRecord
  error : Option String
deriving DecidableEq

/-- The success result of `run_analysis` (`analysis.py` lines 332-341):
`success = True` and a metrics dict holding exactly `baseline_rate` and
`top_decile_rate`, the latter being `response_rates.iloc[-1]['response_rate']`
(the last row of the table `recs`). -/
def successResult (y : List ℚ) (rules : List SRule) (recs : List DecRecord) :
    AnalysisResult :=
  { success := true
    metrics := [("baseline_rate", baselineRate y),
                ("top_decile_rate", (recs.getLastD ⟨0, 0, 0, 0⟩).response_rate)]
    scoringRules := rules
    responseRates := recs
    error := none }

/-- Insert into a sorted list (helper for the sort underlying `median`). -/
def insertS (x : ℚ) : List ℚ → List ℚ
  | [] => [x]
  | y :: ys => if x ≤ y then x :: y :: ys else y :: insertS x ys

/-- Sort a list of rationals (insertion sort; any sort yields the same
sorted list, which is all `median` depends on). -/
def sortQ (l : List ℚ) : List ℚ := l.foldr insertS []

/-- pandas `Series.median()` on the non-missing values: middle element of
the sorted values, or the mean of the two middle elements for an even
count.  (On an empty list the source yields `NaN`; this total model
returns `0` there, and is only ever used on nonempty lists.) -/
def median (l : List ℚ) : ℚ :=
  let s := sortQ l
  if s.length % 2 = 1 then s.getD (s.length / 2) 0
  else (s.getD (s.length / 2 - 1) 0 + s.getD (s.length / 2) 0) / 2

/-- Direction handling (`data_preparation.py` lines 91-95): when the
configured direction is `'Lower values are better'`, every value becomes
`max - v`, with the column max skipping missing cells (on an all-missing
column the max is `NaN` and every cell stays `NaN`, i.e. unchanged). -/
def invertIfLower (vals : List (Option ℚ)) (lowerIsBetter : Bool) :
    List (Option ℚ) :=
  if lowerIsBetter then
    match pdMax vals with
    | some m => vals.map (Option.map (fun v => m - v))
    | none => vals
  else vals

/-- Median imputation (`data_preparation.py` lines 97-102): fill missing
cells with the median of the present values.  When every cell is missing
the median is `NaN` and `fillna` leaves the column unchanged. -/
def fillMedian (vals : List (Option ℚ)) : List (Option ℚ) :=
  if (vals.filterMap id).isEmpty then vals
  else vals.map (fun c => some (c.getD (median (vals.filterMap id))))

/-- Min-max scaling (`data_preparation.py` lines 104-109): scale to
`[0,1]` unless the column minimum equals its maximum, in which case the
column is left as is. -/
def minMaxScale (vals : List (Option ℚ)) : List (Option ℚ) :=
  match pdMin vals, pdMax vals with
  | some a, some b =>
      if a ≠ b then vals.map (Option.map (fun x => (x - a) / (b - a))) else vals
  | _, _ => vals

/-- The numerical-variable transformation of `prepare_analysis_data`
(`data_preparation.py` lines 78-112), applied to the already-parsed cells
of one column (`pd.to_numeric` with character stripping is upstream):
direction inversion, then median imputation, then min-max scaling. -/
def prepare_numerical_column (vals : List (Option ℚ)) (lowerIsBetter : Bool) :
    List (Option ℚ) :=
  minMaxScale (fillMedian (invertIfLower vals lowerIsBetter))

/-- Target handling of `prepare_analysis_data` for a numeric-dtype target
column (`data_preparation.py` lines 124-139).  First the raw column must
not have more than two distinct values, where pandas `unique()` counts a
missing value as one distinct entry; then, on the numeric branch,
`set(unique()).issubset({0, 1, np.nan})` must hold.  A `NaN` taken from
the unique array is a fresh scalar that is neither identical to nor equal
to the `np.nan` in the literal set, so any missing value makes the subset
test fail; the test therefore demands that every cell be exactly 0 or 1. -/
def prepareNumericTarget (vals : List (Option ℚ)) :
    Except String (List (Option ℚ)) :=
  if 2 < (uniqueAppearance vals).length then
    Except.error "Target variable must be binary"
  else if vals.all (fun c => c == some (0 : ℚ) || c == some (1 : ℚ)) then
    Except.ok vals
  else Except.error "Target values must be binary (0/1)"

/-- Whether some cell of some column is missing (validator check 1). -/
def hasMissing (df : DFrame) : Bool :=
  df.cols.any (fun p => p.2.cells.any (fun c => c.isNone))

/-- Whether some column fails `pd.to_numeric` (validator check 2). -/
def hasNonNumeric (df : DFrame) : Bool :=
  df.cols.any (fun p => !p.2.toNumericOk)

/-- pandas `Series.nunique()`: number of distinct non-missing values. -/
def nunique (cells : List (Option ℚ)) : ℕ :=
  (uniqueAppearance (cells.filterMap id)).length

/-- Whether some column has exactly one distinct value (validator
check 4). -/
def hasConstantColumn (df : DFrame) : Bool :=
  df.cols.any (fun p => nunique p.2.cells == 1)

/-- `validate_prepared_data` (`data_preparation.py` lines 172-231): four
checks run in order, each raising immediately on failure — missing
values, non-numeric columns, target values outside `{0,1}`, constant
columns.  The correlation check only logs a warning and never raises.
The target check reads `df[target]`, a `KeyError` if the column is
absent. -/
def validate_prepared_data (df : DFrame) (target : String) : Except String Unit :=
  if hasMissing df then Except.error "Dataset contains missing values"
  else if hasNonNumeric df then Except.error "Non-numeric values found"
  else
    match df.col target with
    | none => Except.error "KeyError"
    | some tcol =>
        if !(tcol.cells.all (fun c => c == some (0 : ℚ) || c == some (1 : ℚ))) then
          Except.error "Target must be binary (0/1)"
        else if hasConstantColumn df then Except.error "Constant columns found"
        else Except.ok ()

/-- Column-level configuration for the name bookkeeping of
`prepare_analysis_data`: the target name, the declared categorical
variables (name, `has_order` flag, and — for the unordered ones — the
distinct observed values after the `'MISSING'` fill, which name the dummy
columns), and the declared numerical variables. -/
structure PrepConfig where
  target : String
  categoricals : List (String × Bool × List String)
  numericals : List String
deriving DecidableEq

/-- Python `col.startswith(s)`, stated on the character lists of the two
strings. -/
def strStartsWith (col s : String) : Bool :=
  s.toList.isPrefixOf col.toList

/-- Names of the indicator columns `pd.get_dummies(.., prefix=c)` creates
for an unordered categorical column `c`. -/
def dummyNames (c : String) (vals : List String) : List String :=
  vals.map (fun v => c ++ "_" ++ v)

/-- Column names after the categorical loop of `prepare_analysis_data`
(`data_preparation.py` lines 36-69): ordered categoricals are rank-mapped
in place (same name), unordered ones get their dummy columns concatenated
after all original columns. -/
def colsAfterDummies (orig : List String) (cfg : PrepConfig) : List String :=
  orig ++ (cfg.categoricals.filter (fun t => !t.2.1)).flatMap (fun t => dummyNames t.1 t.2.2)

/-- Column names after
`df_prep.drop(columns=config['categorical_variables'])`
(`data_preparation.py` line 145). -/
def colsAfterDrop (orig : List String) (cfg : PrepConfig) : List String :=
  (colsAfterDummies orig cfg).filter
    (fun c => !(cfg.categoricals.any (fun t => t.1 == c)))

/-- The `keep_cols` list of `prepare_analysis_data` (`data_preparation.py`
lines 149-155): the target, the declared numerical variables, and every
remaining column whose name starts with a declared categorical variable's
name followed by an underscore. -/
def keepCols (orig : List String) (cfg : PrepConfig) : List String :=
  cfg.target :: (cfg.numericals ++
    (colsAfterDrop orig cfg).filter
      (fun c => cfg.categoricals.any (fun t => strStartsWith c (t.1 ++ "_"))))

/-- Column names of the returned prepared DataFrame,
`df_prep = df_prep[keep_cols]` (`data_preparation.py` line 156): selecting
by a list of labels keeps exactly those labels, and raises a `KeyError`
(`none`) if any requested label is absent. -/
def prepared_columns (orig : List String) (cfg : PrepConfig) :
    Option (List String) :=
  if (keepCols orig cfg).all (fun c => (colsAfterDrop orig cfg).contains c) then
    some (keepCols orig cfg)
  else none

/-! Helper lemmas. -/

lemma getD_zipWith_mask (s : List ℤ) (m : List Bool) (adj : ℤ) (i : ℕ)
    (h : s.length = m.length) :
    (s.zipWith (fun a b => if b then a + adj else a) m).getD i 0 =
      if m.getD i false then s.getD i 0 + adj else s.getD i 0 := by
  induction s generalizing m i with
  | nil =>
      cases m with
      | nil => simp
      | cons b bs => simp at h
  | cons a as ih =>
      cases m with
      | nil => simp at h
      | cons b bs =>
          cases i with
          | zero => simp
          | succ j =>
              simp only [List.zipWith_cons_cons, List.getD_cons_succ]
              exact ih bs j (by simpa using h)

lemma col_cells_length (df : DFrame) (v : String) (col : ColData)
    (hwf : df.wf = true) (h : df.col v = some col) :
    col.cells.length = df.nrows := by
  unfold DFrame.col at h
  rw [Option.map_eq_some'] at h
  obtain ⟨p, hp, hcol⟩ := h
  have hmem : p ∈ df.cols := List.mem_of_find?_eq_some hp
  unfold DFrame.wf at hwf
  rw [List.all_eq_true] at hwf
  have h2 := hwf p hmem
  rw [beq_iff_eq] at h2
  rw [← hcol]
  exact h2

lemma condMask_length (col : ColData) (c : Cond) (mask : List Bool)
    (h : condMask col c = some mask) : mask.length = col.cells.length := by
  cases c with
  | always => simp [condMask] at h
  | gt t =>
      simp only [condMask, Option.some.injEq] at h
      rw [← h, List.length_map]
  | present =>
      simp only [condMask, Option.some.injEq] at h
      rw [← h, List.length_map]
  | other s => simp [condMask] at h

lemma applyRule_eq_base (df : DFrame) (scores : List ℤ) (r : SRule)
    (h : r.varName = "BASE") : applyRule df scores r = scores := by
  simp [applyRule, h]

lemma applyRule_eq_nocol (df : DFrame) (scores : List ℤ) (r : SRule)
    (hb : ¬r.varName = "BASE") (h : df.col r.varName = none) :
    applyRule df scores r = scores := by
  simp [applyRule, hb, h]

lemma applyRule_eq_nomask (df : DFrame) (scores : List ℤ) (r : SRule)
    (col : ColData) (hb : ¬r.varName = "BASE") (h : df.col r.varName = some col)
    (hm : condMask col r.cond = none) : applyRule df scores r = scores := by
  simp [applyRule, hb, h, hm]

lemma applyRule_eq_mask (df : DFrame) (scores : List ℤ) (r : SRule)
    (col : ColData) (mask : List Bool) (hb : ¬r.varName = "BASE")
    (h : df.col r.varName = some col) (hm : condMask col r.cond = some mask) :
    applyRule df scores r =
      scores.zipWith (fun s m => if m then s + r.adjustment else s) mask := by
  simp [applyRule, hb, h, hm]

lemma hitAt_eq_base (df : DFrame) (r : SRule) (i : ℕ)
    (h : r.varName = "BASE") : hitAt df r i = false := by
  simp [hitAt, h]

lemma hitAt_eq_nocol (df : DFrame) (r : SRule) (i : ℕ)
    (h : df.col r.varName = none) : hitAt df r i = false := by
  simp [hitAt, h]

lemma hitAt_eq_nomask (df : DFrame) (r : SRule) (i : ℕ) (col : ColData)
    (h : df.col r.varName = some col) (hm : condMask col r.cond = none) :
    hitAt df r i = false := by
  simp [hitAt, h, hm]

lemma hitAt_eq_mask (df : DFrame) (r : SRule) (i : ℕ) (col : ColData)
    (mask : List Bool) (hb : ¬r.varName = "BASE")
    (h : df.col r.varName = some col) (hm : condMask col r.cond = some mask) :
    hitAt df r i = mask.getD i false := by
  simp [hitAt, hb, h, hm]

lemma applyRule_length (df : DFrame) (scores : List ℤ) (r : SRule)
    (hwf : df.wf = true) (hlen : scores.length = df.nrows) :
    (applyRule df scores r).length = scores.length := by
  by_cases hb : r.varName = "BASE"
  · rw [applyRule_eq_base df scores r hb]
  · cases hcol : df.col r.varName with
    | none => rw [applyRule_eq_nocol df scores r hb hcol]
    | some col =>
        cases hmask : condMask col r.cond with
        | none => rw [applyRule_eq_nomask df scores r col hb hcol hmask]
        | some mask =>
            rw [applyRule_eq_mask df scores r col mask hb hcol hmask]
            simp only [List.length_zipWith]
            have h1 := col_cells_length df r.varName col hwf hcol
            have h2 := condMask_length col r.cond mask hmask
            omega

lemma applyRule_getD (df : DFrame) (scores : List ℤ) (r : SRule) (i : ℕ)
    (hwf : df.wf = true) (hlen : scores.length = df.nrows) :
    (applyRule df scores r).getD i 0 =
      scores.getD i 0 + (if hitAt df r i then r.adjustment else 0) := by
  by_cases hb : r.varName = "BASE"
  · rw [applyRule_eq_base df scores r hb, hitAt_eq_base df r i hb]
    simp
  · cases hcol : df.col r.varName with
    | none =>
        rw [applyRule_eq_nocol df scores r hb hcol, hitAt_eq_nocol df r i hcol]
        simp
    | some col =>
        cases hmask : condMask col r.cond with
        | none =>
            rw [applyRule_eq_nomask df scores r col hb hcol hmask,
              hitAt_eq_nomask df r i col hcol hmask]
            simp
        | some mask =>
            have h1 := col_cells_length df r.varName col hwf hcol
            have h2 := condMask_length col r.cond mask hmask
            rw [applyRule_eq_mask df scores r col mask hb hcol hmask,
              hitAt_eq_mask df r i col mask hb hcol hmask]
            rw [getD_zipWith_mask scores mask r.adjustment i (by omega)]
            split <;> simp

lemma foldl_applyRule_length (df : DFrame) (hwf : df.wf = true) :
    ∀ (rules : List SRule) (scores : List ℤ), scores.length = df.nrows →
      (rules.foldl (applyRule df) scores).length = df.nrows := by
  intro rules
  induction rules with
  | nil => intro scores h; simpa using h
  | cons r rs ih =>
      intro scores h
      simp only [List.foldl_cons]
      exact ih _ (by rw [applyRule_length df scores r hwf h]; exact h)

lemma foldl_applyRule_getD (df : DFrame) (hwf : df.wf = true) :
    ∀ (rules : List SRule) (scores : List ℤ), scores.length = df.nrows →
      ∀ i : ℕ,
        (rules.foldl (applyRule df) scores).getD i 0 =
          scores.getD i 0 +
            ((rules.filter (fun r => hitAt df r i)).map (fun r => r.adjustment)).sum := by
  intro rules
  induction rules with
  | nil => intro scores h i; simp
  | cons r rs ih =>
      intro scores h i
      simp only [List.foldl_cons]
      rw [ih _ (by rw [applyRule_length df scores r hwf h]; exact h) i]
      rw [applyRule_getD df scores r i hwf h]
      rw [List.filter_cons]
      split
      · simp [add_assoc]
      · simp

/-! Claim theorems. -/

/-- C1: for every well-formed dataset and every rule set whose first
`BASE` rule has adjustment `b`, `apply_scoring_rules` returns one integer
score per row, equal to `b` plus the sum of the adjustments of every
non-base rule whose referenced column exists and whose predicate holds on
that row (threshold rules test `value > t`; `present` rules test
`value == 1` on numeric-dtype columns and non-missingness otherwise);
rules referencing absent columns contribute nothing, and evaluation is
deterministic (evaluating the same inputs twice yields the same
scores). -/
theorem apply_scoring_rules_additive (df : DFrame) (rules : List SRule) (base : SRule)
    (hwf : df.wf = true)
    (hbase : rules.find? (fun r => r.varName == "BASE") = some base) :
    ∃ scores, apply_scoring_rules df rules = some scores ∧
      scores.length = df.nrows ∧
      (∀ i, i < df.nrows →
        scores.getD i 0 = base.adjustment +
          ((rules.filter (fun r => hitAt df r i)).map (fun r => r.adjustment)).sum) ∧
      apply_scoring_rules df rules = apply_scoring_rules df rules := by
  refine ⟨rules.foldl (applyRule df) (List.replicate df.nrows base.adjustment),
    ?_, ?_, ?_, rfl⟩
  · rw [apply_scoring_rules, hbase, Option.map_some']
  · exact foldl_applyRule_length df hwf rules _ (by simp)
  · intro i hi
    rw [foldl_applyRule_getD df hwf rules _ (by simp) i]
    congr 1
    rw [List.getD_eq_getElem?_getD, List.getElem?_replicate]
    simp [hi]

/-- Concrete dataset for the C1 witness. -/
def dfW : DFrame :=
  { nrows := 2
    cols := [("A", ⟨true, true, [some 1, some 0]⟩),
             ("B", ⟨true, true, [some (3/2), some (1/2)]⟩)] }

/-- Concrete rule set for the C1 witness. -/
def rulesW : List SRule :=
  [⟨"BASE", Cond.always, 1000⟩, ⟨"A", Cond.present, 50⟩,
   ⟨"B", Cond.gt 1, -30⟩, ⟨"C", Cond.present, 7⟩]

/-- Witness for C1 at a concrete dataset and rule set. -/
theorem apply_scoring_rules_additive_witness :
    ∃ scores, apply_scoring_rules dfW rulesW = some scores ∧
      scores.length = dfW.nrows ∧
      (∀ i, i < dfW.nrows →
        scores.getD i 0 = (1000 : ℤ) +
          ((rulesW.filter (fun r => hitAt dfW r i)).map (fun r => r.adjustment)).sum) ∧
      apply_scoring_rules dfW rulesW = apply_scoring_rules dfW rulesW :=
  apply_scoring_rules_additive dfW rulesW ⟨"BASE", Cond.always, 1000⟩ (by decide)
    (by decide)

lemma mem_foldl_ua {α : Type} [DecidableEq α] (l : List α) :
    ∀ (acc : List α) (x : α),
      (x ∈ l.foldl (fun acc x => if x ∈ acc then acc else acc ++ [x]) acc ↔
        x ∈ acc ∨ x ∈ l) := by
  induction l with
  | nil => intro acc x; simp
  | cons a l ih =>
      intro acc x
      simp only [List.foldl_cons]
      rw [ih]
      by_cases ha : a ∈ acc
      · simp only [ha, if_true, List.mem_cons]
        constructor
        · rintro (h | h)
          · exact Or.inl h
          · exact Or.inr (Or.inr h)
        · rintro (h | h | h)
          · exact Or.inl h
          · exact Or.inl (h ▸ ha)
          · exact Or.inr h
      · simp only [ha, if_false, List.mem_append, List.mem_singleton, List.mem_cons]
        tauto

lemma nodup_foldl_ua {α : Type} [DecidableEq α] (l : List α) :
    ∀ acc : List α, acc.Nodup →
      (l.foldl (fun acc x => if x ∈ acc then acc else acc ++ [x]) acc).Nodup := by
  induction l with
  | nil => intro acc h; simpa using h
  | cons a l ih =>
      intro acc h
      simp only [List.foldl_cons]
      by_cases ha : a ∈ acc
      · simpa [ha] using ih acc h
      · refine ih _ ?_
        simp only [ha, if_false]
        exact List.Nodup.append h (List.nodup_singleton a) (by simpa using ha)

lemma uniqueAppearance_mem {α : Type} [DecidableEq α] (l : List α) (x : α) :
    x ∈ uniqueAppearance l ↔ x ∈ l := by
  unfold uniqueAppearance
  rw [mem_foldl_ua]
  simp

lemma uniqueAppearance_nodup {α : Type} [DecidableEq α] (l : List α) :
    (uniqueAppearance l).Nodup :=
  nodup_foldl_ua l [] List.nodup_nil

lemma ua_length_of_all (d : List (Fin 10)) (hall : ∀ k : Fin 10, k ∈ d) :
    (uniqueAppearance d).length = 10 := by
  have hnd := uniqueAppearance_nodup d
  have huniv : (uniqueAppearance d).toFinset = Finset.univ := by
    ext k
    simp [List.mem_toFinset, (uniqueAppearance_mem d k).mpr (hall k)]
  have hcard := List.toFinset_card_of_nodup hnd
  rw [huniv] at hcard
  simpa using hcard.symm

lemma sum_count_univ (d : List (Fin 10)) :
    (∑ k : Fin 10, d.count k) = d.length := by
  induction d with
  | nil => simp
  | cons a d ih =>
      have h : ∀ k : Fin 10, (a :: d).count k = d.count k + if a = k then 1 else 0 := by
        intro k
        rw [List.count_cons]
        simp [beq_iff_eq]
      simp only [h]
      rw [Finset.sum_add_distrib, ih, Finset.sum_ite_eq Finset.univ a (fun _ => 1)]
      simp [List.length_cons]

lemma binSum_cons (b : ℚ) (ys : List ℚ) (a : Fin 10) (d : List (Fin 10))
    (k : Fin 10) :
    binSum (b :: ys) (a :: d) k = (if k = a then b else 0) + binSum ys d k := by
  by_cases h : a = k
  · simp [binSum, List.filter_cons, h, beq_iff_eq]
  · have h2 : ¬(k = a) := fun hk => h hk.symm
    simp [binSum, List.filter_cons, h, h2, beq_iff_eq]

lemma sum_binSum (d : List (Fin 10)) :
    ∀ y : List ℚ, d.length = y.length →
      (∑ k : Fin 10, binSum y d k) = y.sum := by
  induction d with
  | nil =>
      intro y h
      have : y = [] := List.eq_nil_of_length_eq_zero h.symm
      subst this
      simp [binSum]
  | cons a d ih =>
      intro y h
      cases y with
      | nil => simp at h
      | cons b ys =>
          simp only [binSum_cons]
          rw [Finset.sum_add_distrib, ih ys (by simpa using h),
            Finset.sum_ite_eq' Finset.univ a (fun _ => b)]
          simp [List.sum_cons, add_comm]

/-- Unfolding of `response_rates` when all ten decile labels occur. -/
lemma response_rates_eq (y : List ℚ) (d : List (Fin 10))
    (h : (uniqueAppearance d).length = 10) :
    response_rates y d = some ((List.finRange 10).map (mkDecRecord y d)) := by
  rw [response_rates]
  simp [h]

lemma map_finRange_sum {M : Type} [AddCommMonoid M] (f : Fin 10 → M) :
    ((List.finRange 10).map f).sum = ∑ k : Fin 10, f k :=
  (Fin.sum_univ_def f).symm

/-- C2: whenever the analysis succeeds (all ten deciles occur and targets
and deciles are aligned), the decile table has exactly 10 records, the
per-decile counts sum to the number of rows, the count-weighted average
of the response rates equals the baseline rate exactly, and every
record's lift is its response rate divided by the baseline rate. -/
theorem response_rates_conservation (y : List ℚ) (d : List (Fin 10))
    (hlen : d.length = y.length) (hall : ∀ k : Fin 10, k ∈ d) :
    ∃ recs, response_rates y d = some recs ∧ recs.length = 10 ∧
      (recs.map (fun r => r.count)).sum = y.length ∧
      ((recs.map (fun r => (r.count : ℚ) * r.response_rate)).sum) /
        ((recs.map (fun r => (r.count : ℚ))).sum) = baselineRate y ∧
      (∀ r ∈ recs, r.lift = r.response_rate / baselineRate y) := by
  have hua := ua_length_of_all d hall
  refine ⟨_, response_rates_eq y d hua, ?_, ?_, ?_, ?_⟩
  · simp
  · rw [List.map_map, map_finRange_sum]
    have h1 : (∑ k : Fin 10, ((fun r : DecRecord => r.count) ∘ mkDecRecord y d) k)
        = ∑ k : Fin 10, d.count k := rfl
    rw [h1, sum_count_univ, hlen]
  · rw [List.map_map, List.map_map, map_finRange_sum, map_finRange_sum]
    have hnum : (∑ k : Fin 10,
        ((fun r : DecRecord => (r.count : ℚ) * r.response_rate) ∘ mkDecRecord y d) k)
        = ∑ k : Fin 10, (d.count k : ℚ) * binRate y d k := rfl
    have hden : (∑ k : Fin 10, ((fun r : DecRecord => (r.count : ℚ)) ∘ mkDecRecord y d) k)
        = ∑ k : Fin 10, ((d.count k : ℕ) : ℚ) := rfl
    rw [hnum, hden]
    have hterm : ∀ k : Fin 10, (d.count k : ℚ) * binRate y d k = binSum y d k := by
      intro k
      have hpos : 0 < d.count k := List.count_pos_iff.mpr (hall k)
      have hne : ((d.count k : ℕ) : ℚ) ≠ 0 :=
        ne_of_gt (by exact_mod_cast hpos)
      rw [binRate, binCount, mul_div_cancel₀ _ hne]
    rw [Finset.sum_congr rfl (fun k _ => hterm k), sum_binSum d y hlen,
      ← Nat.cast_sum, sum_count_univ, hlen]
    rfl
  · intro r hr
    rw [List.mem_map] at hr
    obtain ⟨k, _, rfl⟩ := hr
    rfl

/-- Concrete decile assignment for the C2 witness: twenty rows, each
decile containing two rows. -/
def dW2 : List (Fin 10) :=
  [0, 1, 2, 3, 4, 5, 6, 7, 8, 9, 0, 1, 2, 3, 4, 5, 6, 7, 8, 9]

/-- Concrete targets for the C2 witness. -/
def yW2 : List ℚ :=
  [1, 0, 1, 0, 0, 0, 0, 0, 0, 1, 0, 0, 0, 0, 0, 1, 0, 0, 0, 1]

/-- Witness for C2 at a concrete input. -/
theorem response_rates_conservation_witness :
    ∃ recs, response_rates yW2 dW2 = some recs ∧ recs.length = 10 ∧
      (recs.map (fun r => r.count)).sum = yW2.length ∧
      ((recs.map (fun r => (r.count : ℚ) * r.response_rate)).sum) /
        ((recs.map (fun r => (r.count : ℚ))).sum) = baselineRate yW2 ∧
      (∀ r ∈ recs, r.lift = r.response_rate / baselineRate yW2) :=
  response_rates_conservation yW2 dW2 (by decide) (by decide)

/-- Decile assignment produced by `pd.qcut` for ten rows with predicted
probabilities `[0.95, 0.05, 0.15, 0.25, 0.35, 0.45, 0.55, 0.65, 0.75,
0.85]`: row 0 holds the highest probability and lands in the top decile
(`D10`, index 9), rows 1-9 land in `D1`-`D9`. -/
def d3 : List (Fin 10) := [9, 0, 1, 2, 3, 4, 5, 6, 7, 8]

/-- Targets for the same ten rows: only row 0 (the top-decile row)
responded. -/
def y3 : List ℚ := [1, 0, 0, 0, 0, 0, 0, 0, 0, 0]

lemma finRange_ten :
    List.finRange 10 = [0, 1, 2, 3, 4, 5, 6, 7, 8, 9] := by decide

/-- C3 evaluation: on the input `y3`/`d3` the decile table's first record
carries the label `D10` (index 9) together with decile `D1`'s statistics
(response rate 0), the record holding the top decile's statistics
(response rate 1, lift 10) is labeled `D9` (index 8), and the last record
is not labeled `D10`.  The `'decile'` column follows order of first
appearance while the statistics follow category order, so the labels are
misaligned with the grouped statistics. -/
lemma binSum_eval_list (y : List ℚ) (d : List (Fin 10)) (k : Fin 10)
    (l : List ℚ) (h : ((d.zip y).filter (fun p => p.1 == k)).map Prod.snd = l) :
    binSum y d k = l.sum := by
  rw [binSum, h]

theorem response_rates_label_misaligned :
    response_rates y3 d3 = some
      [⟨9, 1, 0, 0⟩, ⟨0, 1, 0, 0⟩, ⟨1, 1, 0, 0⟩, ⟨2, 1, 0, 0⟩, ⟨3, 1, 0, 0⟩,
       ⟨4, 1, 0, 0⟩, ⟨5, 1, 0, 0⟩, ⟨6, 1, 0, 0⟩, ⟨7, 1, 0, 0⟩, ⟨8, 1, 1, 10⟩] ∧
    binRate y3 d3 9 = 1 := by
  have e0 : binSum y3 d3 0 = 0 := by
    rw [binSum_eval_list y3 d3 0 [0] (by decide)]; simp
  have e1 : binSum y3 d3 1 = 0 := by
    rw [binSum_eval_list y3 d3 1 [0] (by decide)]; simp
  have e2 : binSum y3 d3 2 = 0 := by
    rw [binSum_eval_list y3 d3 2 [0] (by decide)]; simp
  have e3 : binSum y3 d3 3 = 0 := by
    rw [binSum_eval_list y3 d3 3 [0] (by decide)]; simp
  have e4 : binSum y3 d3 4 = 0 := by
    rw [binSum_eval_list y3 d3 4 [0] (by decide)]; simp
  have e5 : binSum y3 d3 5 = 0 := by
    rw [binSum_eval_list y3 d3 5 [0] (by decide)]; simp
  have e6 : binSum y3 d3 6 = 0 := by
    rw [binSum_eval_list y3 d3 6 [0] (by decide)]; simp
  have e7 : binSum y3 d3 7 = 0 := by
    rw [binSum_eval_list y3 d3 7 [0] (by decide)]; simp
  have e8 : binSum y3 d3 8 = 0 := by
    rw [binSum_eval_list y3 d3 8 [0] (by decide)]; simp
  have e9 : binSum y3 d3 9 = 1 := by
    rw [binSum_eval_list y3 d3 9 [1] (by decide)]; simp
  have hcnt : ∀ k : Fin 10, binCount d3 k = 1 := by decide
  have hbase : baselineRate y3 = 1 / 10 := by
    rw [baselineRate]
    norm_num [y3]
  have hua3 : uniqueAppearance d3 = [9, 0, 1, 2, 3, 4, 5, 6, 7, 8] := by decide
  constructor
  · rw [response_rates_eq y3 d3 (by decide), finRange_ten]
    simp only [List.map_cons, List.map_nil, Option.some.injEq]
    norm_num [mkDecRecord, binRate, hcnt, hbase, hua3,
      e0, e1, e2, e3, e4, e5, e6, e7, e8, e9]
    decide
  · rw [binRate, hcnt 9, e9]
    norm_num

/-- C4 counterexample: the metrics mapping of a successfully built result
object has exactly the two keys `baseline_rate` and `top_decile_rate`; no
AUC, average-precision or cross-validated-AUC entry exists under any
naming. -/
theorem successResult_metrics_missing_auc :
    ((successResult y3 [] []).metrics.map Prod.fst =
      ["baseline_rate", "top_decile_rate"]) ∧
    (∀ p ∈ (successResult y3 [] []).metrics,
      p.1 ≠ "auc_score" ∧ p.1 ≠ "aucScore" ∧ p.1 ≠ "avg_precision" ∧
      p.1 ≠ "avgPrecision" ∧ p.1 ≠ "cross_val_auc" ∧ p.1 ≠ "crossValAuc") := by
  constructor
  · rfl
  · intro p hp
    simp only [successResult, List.mem_cons, List.not_mem_nil, or_false] at hp
    rcases hp with h | h <;> subst h <;> exact ⟨by decide, by decide, by decide,
      by decide, by decide, by decide⟩

/-- C4 (amended): every result object built by the success path of
`run_analysis` has `success = true` and a metrics mapping holding exactly
`baseline_rate` (the unconditional target mean) and `top_decile_rate`
(the response rate of the last row of the decile table). -/
theorem successResult_metrics_spec (y : List ℚ) (rules : List SRule)
    (recs : List DecRecord) :
    (successResult y rules recs).success = true ∧
    (successResult y rules recs).metrics.map Prod.fst =
      ["baseline_rate", "top_decile_rate"] ∧
    (successResult y rules recs).metrics.lookup "baseline_rate" =
      some (baselineRate y) ∧
    (successResult y rules recs).metrics.lookup "top_decile_rate" =
      some ((recs.getLastD ⟨0, 0, 0, 0⟩).response_rate) ∧
    (successResult y rules recs).error = none :=
  ⟨rfl, rfl, rfl, rfl, rfl⟩

lemma foldl_min_mem (xs : List ℚ) : ∀ x : ℚ, xs.foldl min x ∈ x :: xs := by
  induction xs with
  | nil => intro x; simp
  | cons a as ih =>
      intro x
      simp only [List.foldl_cons]
      rcases List.mem_cons.mp (ih (min x a)) with h | h
      · rcases min_choice x a with h2 | h2
        · rw [h, h2]; exact List.mem_cons_self _ _
        · rw [h, h2]; exact List.mem_cons_of_mem _ (List.mem_cons_self _ _)
      · exact List.mem_cons_of_mem _ (List.mem_cons_of_mem _ h)

lemma foldl_min_le (xs : List ℚ) :
    ∀ x : ℚ, ∀ y ∈ x :: xs, xs.foldl min x ≤ y := by
  induction xs with
  | nil =>
      intro x y hy
      rw [List.mem_singleton] at hy
      simp [hy]
  | cons a as ih =>
      intro x y hy
      simp only [List.foldl_cons]
      have h0 : as.foldl min (min x a) ≤ min x a :=
        ih (min x a) (min x a) (List.mem_cons_self _ _)
      rcases List.mem_cons.mp hy with rfl | hy2
      · exact le_trans h0 (min_le_left _ _)
      · rcases List.mem_cons.mp hy2 with rfl | hy3
        · exact le_trans h0 (min_le_right _ _)
        · exact ih (min x a) y (List.mem_cons_of_mem _ hy3)

lemma foldl_max_mem (xs : List ℚ) : ∀ x : ℚ, xs.foldl max x ∈ x :: xs := by
  induction xs with
  | nil => intro x; simp
  | cons a as ih =>
      intro x
      simp only [List.foldl_cons]
      rcases List.mem_cons.mp (ih (max x a)) with h | h
      · rcases max_choice x a with h2 | h2
        · rw [h, h2]; exact List.mem_cons_self _ _
        · rw [h, h2]; exact List.mem_cons_of_mem _ (List.mem_cons_self _ _)
      · exact List.mem_cons_of_mem _ (List.mem_cons_of_mem _ h)

lemma le_foldl_max (xs : List ℚ) :
    ∀ x : ℚ, ∀ y ∈ x :: xs, y ≤ xs.foldl max x := by
  induction xs with
  | nil =>
      intro x y hy
      rw [List.mem_singleton] at hy
      simp [hy]
  | cons a as ih =>
      intro x y hy
      simp only [List.foldl_cons]
      have h0 : max x a ≤ as.foldl max (max x a) :=
        ih (max x a) (max x a) (List.mem_cons_self _ _)
      rcases List.mem_cons.mp hy with rfl | hy2
      · exact le_trans (le_max_left _ _) h0
      · rcases List.mem_cons.mp hy2 with rfl | hy3
        · exact le_trans (le_max_right _ _) h0
        · exact ih (max x a) y (List.mem_cons_of_mem _ hy3)

lemma pdMin_spec (l : List (Option ℚ)) (mn : ℚ) (h : pdMin l = some mn) :
    mn ∈ l.filterMap id ∧ ∀ q ∈ l.filterMap id, mn ≤ q := by
  rw [pdMin] at h
  cases hf : l.filterMap id with
  | nil => rw [hf] at h; simp at h
  | cons x xs =>
      rw [hf] at h
      simp only [Option.some.injEq] at h
      subst h
      exact ⟨hf ▸ foldl_min_mem xs x, fun q hq => foldl_min_le xs x q (hf ▸ hq)⟩

lemma pdMax_spec (l : List (Option ℚ)) (mx : ℚ) (h : pdMax l = some mx) :
    mx ∈ l.filterMap id ∧ ∀ q ∈ l.filterMap id, q ≤ mx := by
  rw [pdMax] at h
  cases hf : l.filterMap id with
  | nil => rw [hf] at h; simp at h
  | cons x xs =>
      rw [hf] at h
      simp only [Option.some.injEq] at h
      subst h
      exact ⟨hf ▸ foldl_max_mem xs x, fun q hq => le_foldl_max xs x q (hf ▸ hq)⟩

lemma any_isSome_iff (l : List (Option ℚ)) :
    l.any (fun c => c.isSome) = true ↔ l.filterMap id ≠ [] := by
  constructor
  · intro h hf
    rw [List.any_eq_true] at h
    obtain ⟨c, hc, hs⟩ := h
    cases c with
    | none => simp at hs
    | some q =>
        have : q ∈ l.filterMap id := by
          rw [List.mem_filterMap]
          exact ⟨some q, hc, rfl⟩
        rw [hf] at this
        simp at this
  · intro h
    cases hf : l.filterMap id with
    | nil => exact absurd hf h
    | cons x xs =>
        have : x ∈ l.filterMap id := by rw [hf]; exact List.mem_cons_self _ _
        rw [List.mem_filterMap] at this
        obtain ⟨c, hc, he⟩ := this
        rw [List.any_eq_true]
        refine ⟨c, hc, ?_⟩
        cases c with
        | none => simp at he
        | some q => simp

lemma pdMin_isSome (l : List (Option ℚ)) (h : l.filterMap id ≠ []) :
    ∃ mn, pdMin l = some mn := by
  rw [pdMin]
  cases hf : l.filterMap id with
  | nil => exact absurd hf h
  | cons x xs => exact ⟨xs.foldl min x, rfl⟩

lemma pdMax_isSome (l : List (Option ℚ)) (h : l.filterMap id ≠ []) :
    ∃ mx, pdMax l = some mx := by
  rw [pdMax]
  cases hf : l.filterMap id with
  | nil => exact absurd hf h
  | cons x xs => exact ⟨xs.foldl max x, rfl⟩

lemma pyInt_eval (q : ℚ) (n : ℤ) (d : ℕ) (hn : q.num = n) (hd : q.den = d) :
    pyInt q = n.tdiv d := by
  rw [pyInt, hn, hd]

/-- C5 counterexample: a numerical variable whose config carries a
declared range (original units, here `[10, 50]`) while the prepared
column holds post-scaling values in `[0,1]`.  The emitted threshold rules
use the config range, so the high threshold is `38`, far outside `[0,1]`,
and the high rule's adjustment is `int(15 * 0.7) = 10`, not 70% of the
base adjustment (`10.5`). -/
theorem generate_threshold_rules_config_range :
    processFeature ⟨3, [("F", ⟨true, true, [some 0, some (1/2), some 1]⟩)]⟩
        [("F", ⟨"numerical", some 10, some 50⟩)] "F" (3/200) =
      Except.ok [⟨"F", Cond.gt 38, 10⟩, ⟨"F", Cond.gt 22, 4⟩] ∧
    ¬((38 : ℚ) ≤ 1) ∧ ((10 : ℚ) ≠ 7/10 * 15) ∧
    (∀ q ∈ ([some 0, some (1/2), some 1] : List (Option ℚ)).filterMap id,
      0 ≤ q ∧ q ≤ 1) := by
  have habs : |(3/200 : ℚ)| = 3/200 := abs_of_pos (by norm_num)
  have h1 : ¬(|(3/200 : ℚ)| < 1/100) := by rw [habs]; norm_num
  have hvb : varBase "F" = "F" := by decide
  have hadj : pyInt ((3/200 : ℚ) * 1000) = 15 := by
    have he : (3/200 : ℚ) * 1000 = 15 := by norm_num
    rw [he, pyInt_eval 15 15 1 (by norm_num) (by norm_num)]
    decide
  have hha : pyInt ((21 : ℚ)/2) = 10 := by
    rw [pyInt_eval (21/2) 21 2 (by norm_num) (by norm_num)]
    decide
  have hma : pyInt ((9 : ℚ)/2) = 4 := by
    rw [pyInt_eval (9/2) 9 2 (by norm_num) (by norm_num)]
    decide
  refine ⟨?_, by norm_num, by norm_num, ?_⟩
  · simp only [processFeature, h1, if_false, hvb, hadj]
    norm_num [DFrame.col, hha, hma]
  · intro q hq
    simp at hq
    rcases hq with rfl | rfl | rfl <;> norm_num

/-- C5 (amended): for a numerical feature whose config declares no range,
the two threshold rules fall back to the prepared column's observed
min/max; when the prepared column's values lie in `[0,1]` (as min-max
scaling guarantees), both emitted thresholds — `min + 0.7*(max-min)` and
`min + 0.3*(max-min)` — lie in `[0,1]`, and the rules' adjustments are
the Python-`int` truncations of 0.7 and 0.3 times the feature's base
adjustment. -/
theorem generate_threshold_rules_scaled (df : DFrame)
    (details : List (String × VarDetail)) (name : String) (coef : ℚ)
    (col : ColData)
    (hd : (details.find? (fun p => p.1 == varBase name)).map Prod.snd =
      some ⟨"numerical", none, none⟩)
    (hcoef : ¬(|coef| < 1/100))
    (hcol : df.col name = some col)
    (hne : col.cells.any (fun c => c.isSome) = true)
    (hrange : ∀ q ∈ col.cells.filterMap id, 0 ≤ q ∧ q ≤ 1) :
    ∃ mn mx, pdMin col.cells = some mn ∧ pdMax col.cells = some mx ∧
      processFeature df details name coef = Except.ok
        [⟨name, Cond.gt (mn + 7/10 * (mx - mn)),
          pyInt ((pyInt (coef * 1000) : ℚ) * (7/10))⟩,
         ⟨name, Cond.gt (mn + 3/10 * (mx - mn)),
          pyInt ((pyInt (coef * 1000) : ℚ) * (3/10))⟩] ∧
      0 ≤ mn + 7/10 * (mx - mn) ∧ mn + 7/10 * (mx - mn) ≤ 1 ∧
      0 ≤ mn + 3/10 * (mx - mn) ∧ mn + 3/10 * (mx - mn) ≤ 1 := by
  have hfm : col.cells.filterMap id ≠ [] := (any_isSome_iff col.cells).mp hne
  obtain ⟨mn, hmn⟩ := pdMin_isSome col.cells hfm
  obtain ⟨mx, hmx⟩ := pdMax_isSome col.cells hfm
  obtain ⟨hmn_mem, hmn_le⟩ := pdMin_spec col.cells mn hmn
  obtain ⟨hmx_mem, hmx_ge⟩ := pdMax_spec col.cells mx hmx
  have h0n : 0 ≤ mn := (hrange mn hmn_mem).1
  have h1x : mx ≤ 1 := (hrange mx hmx_mem).2
  have hnx : mn ≤ mx := hmx_ge mn hmn_mem
  refine ⟨mn, mx, hmn, hmx, ?_, by linarith, by linarith, by linarith, by linarith⟩
  simp only [processFeature, hcoef, if_false, hd, hcol, hne, hmn, hmx]
  simp [Option.getD]

/-- Concrete inputs for the C5 witness. -/
def dfW5 : DFrame :=
  { nrows := 3, cols := [("G", ⟨true, true, [some 0, some (1/4), some 1]⟩)] }

/-- Concrete details for the C5 witness: type numerical, no range. -/
def detW5 : List (String × VarDetail) := [("G", ⟨"numerical", none, none⟩)]

/-- Witness for C5 (amended) at a concrete feature. -/
theorem generate_threshold_rules_scaled_witness :
    ∃ mn mx, pdMin (⟨true, true, [some 0, some (1/4), some 1]⟩ : ColData).cells = some mn ∧
      pdMax (⟨true, true, [some 0, some (1/4), some 1]⟩ : ColData).cells = some mx ∧
      processFeature dfW5 detW5 "G" (1/50) = Except.ok
        [⟨"G", Cond.gt (mn + 7/10 * (mx - mn)),
          pyInt ((pyInt ((1/50 : ℚ) * 1000) : ℚ) * (7/10))⟩,
         ⟨"G", Cond.gt (mn + 3/10 * (mx - mn)),
          pyInt ((pyInt ((1/50 : ℚ) * 1000) : ℚ) * (3/10))⟩] ∧
      0 ≤ mn + 7/10 * (mx - mn) ∧ mn + 7/10 * (mx - mn) ≤ 1 ∧
      0 ≤ mn + 3/10 * (mx - mn) ∧ mn + 3/10 * (mx - mn) ≤ 1 :=
  generate_threshold_rules_scaled dfW5 detW5 "G" (1/50)
    ⟨true, true, [some 0, some (1/4), some 1]⟩
    (by decide)
    (by rw [abs_of_pos (by norm_num : (0:ℚ) < 1/50)]; norm_num)
    rfl (by decide)
    (by intro q hq; simp at hq; rcases hq with rfl | rfl | rfl <;> norm_num)

/-- C6 counterexample: the one-hot feature `COLOR_RED` with coefficient
`0.0156` gets adjustment `int(15.6) = 15`, while rounding to the nearest
integer would give `16`; Python `int()` truncates toward zero rather than
rounding. -/
theorem generate_adjustment_not_rounded :
    processFeature ⟨1, []⟩ [] "COLOR_RED" (39/2500) =
      Except.ok [⟨"COLOR_RED", Cond.present, 15⟩] ∧
    round ((39/2500 : ℚ) * 1000) = 16 ∧ (15 : ℤ) ≠ 16 := by
  have habs : |(39/2500 : ℚ)| = 39/2500 := abs_of_pos (by norm_num)
  have h1 : ¬(|(39/2500 : ℚ)| < 1/100) := by rw [habs]; norm_num
  have hadj : pyInt ((39/2500 : ℚ) * 1000) = 15 := by
    have he : (39/2500 : ℚ) * 1000 = 78/5 := by norm_num
    rw [he, pyInt_eval (78/5) 78 5 (by norm_num) (by norm_num)]
    decide
  refine ⟨?_, ?_, by decide⟩
  · simp only [processFeature, h1, if_false, hadj, List.find?_nil,
      Option.map_none', Option.getD_none]
    rw [if_neg (by decide : ¬(("categorical" : String) = "numerical")), ite_self]
  · have he : (39/2500 : ℚ) * 1000 = 78/5 := by norm_num
    rw [he, round_eq]
    norm_num

/-- C6 (amended): a feature with `|coefficient| < 0.01` emits no rule; a
feature whose originating variable is not configured numerical emits one
`present` rule whose adjustment is the truncation toward zero of
`coefficient * 1000` (Python `int()`, not rounding). -/
theorem generate_present_rule_adjustment (df : DFrame)
    (details : List (String × VarDetail)) (name : String) (coef : ℚ)
    (hv : (((details.find? (fun p => p.1 == varBase name)).map Prod.snd).getD
      ⟨"categorical", none, none⟩).vtype ≠ "numerical") :
    (|coef| < 1/100 → processFeature df details name coef = Except.ok []) ∧
    (¬(|coef| < 1/100) → processFeature df details name coef =
      Except.ok [⟨name, Cond.present, pyInt (coef * 1000)⟩]) := by
  constructor
  · intro h
    simp only [processFeature]
    rw [if_pos h]
  · intro h
    simp only [processFeature]
    rw [if_neg h, if_neg hv, ite_self]

/-- Witness for C6 (amended) at a concrete feature. -/
theorem generate_present_rule_adjustment_witness :
    (|(1/500 : ℚ)| < 1/100 →
      processFeature ⟨1, []⟩ [] "REGION_WEST" (1/500) = Except.ok []) ∧
    (¬(|(1/500 : ℚ)| < 1/100) →
      processFeature ⟨1, []⟩ [] "REGION_WEST" (1/500) =
        Except.ok [⟨"REGION_WEST", Cond.present, pyInt ((1/500 : ℚ) * 1000)⟩]) :=
  generate_present_rule_adjustment ⟨1, []⟩ [] "REGION_WEST" (1/500) (by decide)

lemma insertS_perm (x : ℚ) (l : List ℚ) : (insertS x l).Perm (x :: l) := by
  induction l with
  | nil => exact List.Perm.refl _
  | cons y ys ih =>
      rw [insertS]
      split
      · exact List.Perm.refl _
      · exact (List.Perm.cons y ih).trans (List.Perm.swap x y ys)

lemma sortQ_perm (l : List ℚ) : (sortQ l).Perm l := by
  induction l with
  | nil => exact List.Perm.refl _
  | cons a l ih =>
      rw [sortQ, List.foldr_cons]
      exact (insertS_perm a (l.foldr insertS [])).trans (List.Perm.cons a ih)

lemma getD_mem_q (l : List ℚ) (i : ℕ) (h : i < l.length) : l.getD i 0 ∈ l := by
  rw [List.getD_eq_getElem?_getD, List.getElem?_eq_getElem h]
  exact List.getElem_mem h

lemma le_median (l : List ℚ) (h : l ≠ []) (A : ℚ) (hA : ∀ x ∈ l, A ≤ x) :
    A ≤ median l := by
  have hperm := sortQ_perm l
  have hlen : (sortQ l).length = l.length := hperm.length_eq
  have hpos : 0 < (sortQ l).length := by
    rw [hlen]
    exact List.length_pos.mpr h
  have hmem : ∀ i, i < (sortQ l).length → (sortQ l).getD i 0 ∈ l :=
    fun i hi => hperm.mem_iff.mp (getD_mem_q _ i hi)
  rw [median]
  split
  · exact hA _ (hmem _ (by omega))
  · have h1 := hA _ (hmem ((sortQ l).length / 2 - 1) (by omega))
    have h2 := hA _ (hmem ((sortQ l).length / 2) (by omega))
    linarith

lemma median_le (l : List ℚ) (h : l ≠ []) (B : ℚ) (hB : ∀ x ∈ l, x ≤ B) :
    median l ≤ B := by
  have hperm := sortQ_perm l
  have hlen : (sortQ l).length = l.length := hperm.length_eq
  have hpos : 0 < (sortQ l).length := by
    rw [hlen]
    exact List.length_pos.mpr h
  have hmem : ∀ i, i < (sortQ l).length → (sortQ l).getD i 0 ∈ l :=
    fun i hi => hperm.mem_iff.mp (getD_mem_q _ i hi)
  rw [median]
  split
  · exact hB _ (hmem _ (by omega))
  · have h1 := hB _ (hmem ((sortQ l).length / 2 - 1) (by omega))
    have h2 := hB _ (hmem ((sortQ l).length / 2) (by omega))
    linarith

lemma filterMap_id_map (f : ℚ → ℚ) (l : List (Option ℚ)) :
    (l.map (Option.map f)).filterMap id = (l.filterMap id).map f := by
  induction l with
  | nil => simp
  | cons c l ih => cases c <;> simp [ih]

lemma filterMap_id_map_some (g : Option ℚ → ℚ) (l : List (Option ℚ)) :
    (l.map (fun c => some (g c))).filterMap id = l.map g := by
  induction l with
  | nil => simp
  | cons c l ih => simp [ih]

lemma fillMedian_eq (vals : List (Option ℚ)) (h : vals.filterMap id ≠ []) :
    fillMedian vals =
      vals.map (fun c => some (c.getD (median (vals.filterMap id)))) := by
  rw [fillMedian, if_neg]
  simpa using h

lemma mem_values_of_mem_filterMap (w : List (Option ℚ)) (q : ℚ)
    (h : q ∈ w.filterMap id) :
    q ∈ w.map (fun c => c.getD (median (w.filterMap id))) := by
  rw [List.mem_filterMap] at h
  obtain ⟨c, hc, he⟩ := h
  cases c with
  | none => simp at he
  | some p =>
      simp only [id_eq, Option.some.injEq] at he
      subst he
      exact List.mem_map.mpr ⟨some p, hc, rfl⟩

/-- Behaviour of median fill followed by min-max scaling on a column `w`
whose greatest present value is `B` and whose present values are not all
equal: every output cell is a value in `[0,1]`, and every row holding `B`
maps to exactly `1`. -/
lemma fill_scale_bounds (w : List (Option ℚ)) (B : ℚ)
    (hBmem : B ∈ w.filterMap id) (hBub : ∀ q ∈ w.filterMap id, q ≤ B)
    (hdist : ∃ u ∈ w.filterMap id, ∃ v ∈ w.filterMap id, u ≠ v) :
    (∀ c ∈ minMaxScale (fillMedian w), ∃ q, c = some q ∧ 0 ≤ q ∧ q ≤ 1) ∧
    (∀ i : ℕ, w.getD i none = some B →
      (minMaxScale (fillMedian w)).getD i none = some 1) := by
  have hwne : w.filterMap id ≠ [] := List.ne_nil_of_mem hBmem
  have hmedub : median (w.filterMap id) ≤ B := median_le _ hwne B hBub
  have hfill : fillMedian w =
      w.map (fun c => some (c.getD (median (w.filterMap id)))) :=
    fillMedian_eq w hwne
  have hW : (w.map (fun c => some (c.getD (median (w.filterMap id))))).filterMap id =
      w.map (fun c => c.getD (median (w.filterMap id))) :=
    filterMap_id_map_some _ w
  have hBW : B ∈ (fillMedian w).filterMap id := by
    rw [hfill, hW]
    exact mem_values_of_mem_filterMap w B hBmem
  have hWub : ∀ q ∈ (fillMedian w).filterMap id, q ≤ B := by
    rw [hfill, hW]
    intro q hq
    rw [List.mem_map] at hq
    obtain ⟨c, hc, rfl⟩ := hq
    cases c with
    | none => simpa using hmedub
    | some p =>
        have hp : p ∈ w.filterMap id := List.mem_filterMap.mpr ⟨some p, hc, rfl⟩
        simpa using hBub p hp
  have hWne : (fillMedian w).filterMap id ≠ [] := List.ne_nil_of_mem hBW
  obtain ⟨a, ha⟩ := pdMin_isSome _ hWne
  obtain ⟨b, hb⟩ := pdMax_isSome _ hWne
  have haspec := pdMin_spec _ a ha
  have hbspec := pdMax_spec _ b hb
  have hbB : b = B := le_antisymm (hWub b hbspec.1) (hbspec.2 B hBW)
  have hsubW : ∀ q ∈ w.filterMap id, q ∈ (fillMedian w).filterMap id := by
    intro q hq
    rw [hfill, hW]
    exact mem_values_of_mem_filterMap w q hq
  obtain ⟨u, hu, v, hv, huv⟩ := hdist
  have hab : a ≠ b := by
    intro he
    have hu2 : u = a :=
      le_antisymm (he ▸ hbspec.2 u (hsubW u hu)) (haspec.2 u (hsubW u hu))
    have hv2 : v = a :=
      le_antisymm (he ▸ hbspec.2 v (hsubW v hv)) (haspec.2 v (hsubW v hv))
    exact huv (hu2.trans hv2.symm)
  have haleb : a ≤ b := le_trans (haspec.2 b hbspec.1) (le_refl b)
  have haltb : a < b := lt_of_le_of_ne haleb hab
  have hba : 0 < b - a := by linarith
  have hscale : minMaxScale (fillMedian w) =
      (fillMedian w).map (Option.map (fun q => (q - a) / (b - a))) := by
    simp [minMaxScale, ha, hb, hab]
  constructor
  · intro c hc
    rw [hscale, List.mem_map] at hc
    obtain ⟨c2, hc2, rfl⟩ := hc
    rw [hfill, List.mem_map] at hc2
    obtain ⟨c1, _, rfl⟩ := hc2
    have hqW : c1.getD (median (w.filterMap id)) ∈ (fillMedian w).filterMap id := by
      rw [hfill, hW]
      exact List.mem_map.mpr ⟨c1, by assumption, rfl⟩
    have h1 := haspec.2 _ hqW
    have h2 := hbspec.2 _ hqW
    refine ⟨_, rfl, div_nonneg (by linarith) (le_of_lt hba), ?_⟩
    rw [div_le_one hba]
    linarith
  · intro i hi
    have hwi : w[i]? = some (some B) := by
      rw [List.getD_eq_getElem?_getD] at hi
      cases hx : w[i]? with
      | none => rw [hx] at hi; simp at hi
      | some c =>
          rw [hx] at hi
          simp only [Option.getD_some] at hi
          rw [hi]
    have hfi : (fillMedian w)[i]? = some (some B) := by
      rw [hfill, List.getElem?_map, hwi]
      rfl
    have hsi : (minMaxScale (fillMedian w))[i]? = some (some ((B - a) / (b - a))) := by
      rw [hscale, List.getElem?_map, hfi]
      rfl
    rw [List.getD_eq_getElem?_getD, hsi]
    have : (B - a) / (b - a) = 1 := by
      rw [hbB] at hba ⊢
      field_simp
    rw [this]
    rfl

/-- Behaviour of median fill followed by min-max scaling on a column
whose present values are all equal to `c`: the median is `c`, every
missing cell is filled with `c`, scaling is skipped (min = max), and the
column comes out as the constant `c`. -/
lemma fill_scale_const (w : List (Option ℚ)) (c : ℚ)
    (hne : w.filterMap id ≠ []) (hall : ∀ q ∈ w.filterMap id, q = c) :
    minMaxScale (fillMedian w) = List.replicate w.length (some c) := by
  have hmed : median (w.filterMap id) = c :=
    le_antisymm (median_le _ hne c (fun x hx => le_of_eq (hall x hx)))
      (le_median _ hne c (fun x hx => le_of_eq (hall x hx).symm))
  have hfill : fillMedian w =
      w.map (fun c => some (c.getD (median (w.filterMap id)))) :=
    fillMedian_eq w hne
  have hv2 : ∀ e ∈ fillMedian w, e = some c := by
    intro e he
    rw [hfill, List.mem_map] at he
    obtain ⟨c1, hc1, rfl⟩ := he
    cases c1 with
    | none => simp [hmed]
    | some p =>
        have hp : p ∈ w.filterMap id := List.mem_filterMap.mpr ⟨some p, hc1, rfl⟩
        simp [hall p hp]
  have hWall : ∀ q ∈ (fillMedian w).filterMap id, q = c := by
    intro q hq
    rw [List.mem_filterMap] at hq
    obtain ⟨e, he, hee⟩ := hq
    have := hv2 e he
    rw [this] at hee
    simp only [id_eq, Option.some.injEq] at hee
    exact hee.symm
  have hWne : (fillMedian w).filterMap id ≠ [] := by
    have hlen : (fillMedian w).filterMap id =
        w.map (fun c => c.getD (median (w.filterMap id))) := by
      rw [hfill]
      exact filterMap_id_map_some _ w
    rw [hlen]
    intro hmap
    rw [List.map_eq_nil_iff] at hmap
    rw [hmap] at hne
    simp at hne
  obtain ⟨a, ha⟩ := pdMin_isSome _ hWne
  obtain ⟨b, hb⟩ := pdMax_isSome _ hWne
  have haspec := pdMin_spec _ a ha
  have hbspec := pdMax_spec _ b hb
  have hac : a = c := hWall a haspec.1
  have hbc : b = c := hWall b hbspec.1
  have hscale : minMaxScale (fillMedian w) = fillMedian w := by
    simp [minMaxScale, ha, hb, hac, hbc]
  rw [hscale]
  rw [List.eq_replicate_iff]
  refine ⟨?_, hv2⟩
  rw [hfill, List.length_map]

/-- C7: for a numerical column configured "lower is better": when the
parsed values are not all equal, every transformed cell is a value in
`[0,1]` and every row holding the original (parsed) minimum is mapped to
exactly `1`; when the parsed values are all equal (degenerate column,
min = max after inversion), scaling is skipped and the column comes out
constant (every cell holds the inverted constant `max - v = 0`). -/
theorem prepare_numerical_lower_better (vals : List (Option ℚ)) :
    ((∃ x ∈ vals.filterMap id, ∃ y ∈ vals.filterMap id, x ≠ y) →
      (∀ c ∈ prepare_numerical_column vals true,
        ∃ q, c = some q ∧ 0 ≤ q ∧ q ≤ 1) ∧
      (∀ i : ℕ, ∀ m : ℚ, pdMin vals = some m → vals.getD i none = some m →
        (prepare_numerical_column vals true).getD i none = some 1)) ∧
    ((vals.filterMap id ≠ [] ∧
        (∀ x ∈ vals.filterMap id, ∀ y ∈ vals.filterMap id, x = y)) →
      prepare_numerical_column vals true =
        List.replicate vals.length (some 0)) := by
  constructor
  · rintro ⟨x, hx, y, hy, hxy⟩
    have hPne : vals.filterMap id ≠ [] := List.ne_nil_of_mem hx
    obtain ⟨M, hM⟩ := pdMax_isSome vals hPne
    obtain ⟨m, hm⟩ := pdMin_isSome vals hPne
    have hMspec := pdMax_spec vals M hM
    have hmspec := pdMin_spec vals m hm
    have hstage1 : invertIfLower vals true =
        vals.map (Option.map (fun v => M - v)) := by
      simp [invertIfLower, hM]
    have hP1 : (vals.map (Option.map (fun v => M - v))).filterMap id =
        (vals.filterMap id).map (fun v => M - v) := filterMap_id_map _ vals
    have hBmem : M - m ∈ (vals.map (Option.map (fun v => M - v))).filterMap id := by
      rw [hP1]
      exact List.mem_map.mpr ⟨m, hmspec.1, rfl⟩
    have hBub : ∀ q ∈ (vals.map (Option.map (fun v => M - v))).filterMap id,
        q ≤ M - m := by
      rw [hP1]
      intro q hq
      rw [List.mem_map] at hq
      obtain ⟨p, hp, rfl⟩ := hq
      have := hmspec.2 p hp
      linarith
    have hdist : ∃ u ∈ (vals.map (Option.map (fun v => M - v))).filterMap id,
        ∃ v ∈ (vals.map (Option.map (fun v => M - v))).filterMap id, u ≠ v := by
      rw [hP1]
      refine ⟨M - x, List.mem_map.mpr ⟨x, hx, rfl⟩,
        M - y, List.mem_map.mpr ⟨y, hy, rfl⟩, ?_⟩
      intro he
      exact hxy (by linarith)
    obtain ⟨hbounds, hrow⟩ :=
      fill_scale_bounds (vals.map (Option.map (fun v => M - v))) (M - m)
        hBmem hBub hdist
    constructor
    · intro c hc
      rw [prepare_numerical_column, hstage1] at hc
      exact hbounds c hc
    · intro i m' hm' hi
      rw [hm] at hm'
      have hmm : m' = m := by
        injection hm' with h
        exact h.symm
      subst hmm
      rw [prepare_numerical_column, hstage1]
      apply hrow
      have hvi : vals[i]? = some (some m') := by
        rw [List.getD_eq_getElem?_getD] at hi
        cases hx2 : vals[i]? with
        | none => rw [hx2] at hi; simp at hi
        | some c =>
            rw [hx2] at hi
            simp only [Option.getD_some] at hi
            rw [hi]
      rw [List.getD_eq_getElem?_getD, List.getElem?_map, hvi]
      rfl
  · rintro ⟨hne, hall⟩
    obtain ⟨c0, hc0⟩ := pdMax_isSome vals hne
    have hc0spec := pdMax_spec vals c0 hc0
    have hstage1 : invertIfLower vals true =
        vals.map (Option.map (fun v => c0 - v)) := by
      simp [invertIfLower, hc0]
    have hP1 : (vals.map (Option.map (fun v => c0 - v))).filterMap id =
        (vals.filterMap id).map (fun v => c0 - v) := filterMap_id_map _ vals
    have hP1ne : (vals.map (Option.map (fun v => c0 - v))).filterMap id ≠ [] := by
      rw [hP1]
      intro hmap
      rw [List.map_eq_nil_iff] at hmap
      exact hne hmap
    have hP1z : ∀ q ∈ (vals.map (Option.map (fun v => c0 - v))).filterMap id,
        q = 0 := by
      rw [hP1]
      intro q hq
      rw [List.mem_map] at hq
      obtain ⟨p, hp, rfl⟩ := hq
      have := hall p hp c0 hc0spec.1
      linarith
    rw [prepare_numerical_column, hstage1,
      fill_scale_const (vals.map (Option.map (fun v => c0 - v))) 0 hP1ne hP1z,
      List.length_map]

/-- Concrete column for the C7 witness: direction "lower is better",
values `5, 20, missing, 10`; the original minimum `5` must map to `1`. -/
def valsW7 : List (Option ℚ) := [some 5, some 20, none, some 10]

/-- Witness for C7 at a concrete column: the antecedent (two distinct
parsed values) is discharged by evaluation, and row 0 — which holds the
original minimum `5` — is shown to map to scaled value `1`. -/
theorem prepare_numerical_lower_better_witness :
    (∀ c ∈ prepare_numerical_column valsW7 true,
      ∃ q, c = some q ∧ 0 ≤ q ∧ q ≤ 1) ∧
    (prepare_numerical_column valsW7 true).getD 0 none = some 1 :=
  ⟨((prepare_numerical_lower_better valsW7).1 (by decide)).1,
   ((prepare_numerical_lower_better valsW7).1 (by decide)).2 0 5 (by decide)
     (by decide)⟩

/-- C8 counterexample: a numeric target with observed values exactly
`{0, 1, missing}` has three distinct values under pandas `unique()`
(missing counts as one), so the at-most-two-distinct-values pre-check
rejects it even though the values are a subset of `{0, 1, missing}`;
also, a target with values `{0, missing}` passes the pre-check but is
rejected by the subset test because `NaN` never passes set membership. -/
theorem prepareNumericTarget_rejects_missing :
    prepareNumericTarget [some 0, some 1, none] =
      Except.error "Target variable must be binary" ∧
    (∀ c ∈ ([some 0, some 1, none] : List (Option ℚ)),
      c = some 0 ∨ c = some 1 ∨ c = none) ∧
    prepareNumericTarget [some 0, none] =
      Except.error "Target values must be binary (0/1)" ∧
    (∀ c ∈ ([some 0, none] : List (Option ℚ)),
      c = some 0 ∨ c = some 1 ∨ c = none) := by
  refine ⟨rfl, by decide, rfl, by decide⟩

lemma length_ua_le_two (l : List (Option ℚ))
    (h : ∀ c ∈ l, c = some 0 ∨ c = some 1) :
    (uniqueAppearance l).length ≤ 2 := by
  have hnd := uniqueAppearance_nodup l
  have hsub : (uniqueAppearance l).toFinset ⊆
      ({some 0, some 1} : Finset (Option ℚ)) := by
    intro x hx
    rw [List.mem_toFinset] at hx
    rcases h x ((uniqueAppearance_mem l x).mp hx) with rfl | rfl <;> simp
  have hcard := Finset.card_le_card hsub
  rw [List.toFinset_card_of_nodup hnd] at hcard
  have h2 : ({some 0, some 1} : Finset (Option ℚ)).card ≤ 2 := by
    apply le_trans (Finset.card_insert_le _ _)
    simp
  omega

/-- C8 (amended): for a numeric-dtype target column, preparation succeeds
if and only if every cell is literally `0` or `1`: any third distinct
value (missing included) fails the pre-check, and any missing value fails
the `{0,1,NaN}` subset test because `NaN` never passes Python set
membership. -/
theorem prepareNumericTarget_ok_iff (vals : List (Option ℚ)) :
    prepareNumericTarget vals = Except.ok vals ↔
      ∀ c ∈ vals, c = some (0 : ℚ) ∨ c = some 1 := by
  constructor
  · intro hok
    rw [prepareNumericTarget] at hok
    by_cases h1 : 2 < (uniqueAppearance vals).length
    · rw [if_pos h1] at hok
      exact absurd hok (by simp)
    · rw [if_neg h1] at hok
      by_cases h2 : vals.all
          (fun c => c == some (0 : ℚ) || c == some (1 : ℚ)) = true
      · intro c hc
        have := List.all_eq_true.mp h2 c hc
        simpa using this
      · rw [if_neg h2] at hok
        exact absurd hok (by simp)
  · intro h
    have hall : vals.all (fun c => c == some (0 : ℚ) || c == some (1 : ℚ)) = true := by
      rw [List.all_eq_true]
      intro c hc
      rcases h c hc with rfl | rfl <;> simp
    have hlen : ¬(2 < (uniqueAppearance vals).length) := by
      have := length_ua_le_two vals h
      omega
    rw [prepareNumericTarget, if_neg hlen, if_pos hall]

/-- Prepared frame with two violations: a missing cell in column `A` and
a constant column `B`. -/
def dfC9a : DFrame :=
  { nrows := 3
    cols := [("A", ⟨true, true, [some 1, none, some 2]⟩),
             ("B", ⟨true, true, [some 5, some 5, some 5]⟩),
             ("T", ⟨true, true, [some 0, some 1, some 1]⟩)] }

/-- Prepared frame with only the missing-cell violation. -/
def dfC9b : DFrame :=
  { nrows := 3
    cols := [("A", ⟨true, true, [some 1, none, some 2]⟩),
             ("T", ⟨true, true, [some 0, some 1, some 1]⟩)] }

/-- C9 counterexample: a dataset violating two invariants (missing cells
and a constant column) raises exactly the same error as a dataset
violating only the first, so the single error cannot be listing every
violation found — the validator stops at the first failing check. -/
theorem validate_reports_first_check_only :
    validate_prepared_data dfC9a "T" =
      Except.error "Dataset contains missing values" ∧
    validate_prepared_data dfC9b "T" =
      Except.error "Dataset contains missing values" ∧
    hasConstantColumn dfC9a = true ∧
    hasConstantColumn dfC9b = false := by
  refine ⟨rfl, rfl, by decide, by decide⟩

/-- C9 (amended): the validator raises on the first failing check in the
fixed order missing values → non-numeric → non-binary target → constant
columns; in particular any dataset with a missing cell gets only the
missing-values error, whatever other violations it has. -/
theorem validate_missing_first (df : DFrame) (target : String)
    (h : hasMissing df = true) :
    validate_prepared_data df target =
      Except.error "Dataset contains missing values" := by
  rw [validate_prepared_data, if_pos h]

/-- Witness for C9 (amended) at a concrete dataset. -/
theorem validate_missing_first_witness :
    validate_prepared_data ⟨1, [("X", ⟨true, true, [none]⟩)]⟩ "X" =
      Except.error "Dataset contains missing values" :=
  validate_missing_first ⟨1, [("X", ⟨true, true, [none]⟩)]⟩ "X" (by decide)

/-- C10: a categorical variable configured as ordered leaves no column in
the prepared output: its rank-mapped column (which keeps the variable's
name) is dropped with the original categorical columns, and every kept
column is the target, a declared numerical variable, or a column whose
name starts with a declared categorical variable's name plus underscore. -/
theorem prepared_columns_drop_ordered (orig : List String) (cfg : PrepConfig)
    (v : String) (vs : List String) (cols : List String)
    (hv : (v, true, vs) ∈ cfg.categoricals)
    (h : prepared_columns orig cfg = some cols) :
    v ∉ cols ∧
    ∀ c ∈ cols, c = cfg.target ∨ c ∈ cfg.numericals ∨
      ∃ t ∈ cfg.categoricals, strStartsWith c (t.1 ++ "_") = true := by
  rw [prepared_columns] at h
  by_cases hg : (keepCols orig cfg).all
      (fun c => (colsAfterDrop orig cfg).contains c) = true
  · rw [if_pos hg] at h
    have hcols : cols = keepCols orig cfg := by
      injection h with h2
      exact h2.symm
    subst hcols
    have hvnotdrop : v ∉ colsAfterDrop orig cfg := by
      intro hmem
      rw [colsAfterDrop, List.mem_filter] at hmem
      have h2 := hmem.2
      have h3 : cfg.categoricals.any (fun t => t.1 == v) = true := by
        rw [List.any_eq_true]
        exact ⟨(v, true, vs), hv, by simp⟩
      rw [h3] at h2
      simp at h2
    have hginst : ∀ c ∈ keepCols orig cfg, c ∈ colsAfterDrop orig cfg := by
      intro c hc
      have := List.all_eq_true.mp hg c hc
      simpa using this
    constructor
    · intro hvcols
      exact hvnotdrop (hginst v hvcols)
    · intro c hc
      rw [keepCols, List.mem_cons, List.mem_append] at hc
      rcases hc with rfl | hc2 | hc3
      · exact Or.inl rfl
      · exact Or.inr (Or.inl hc2)
      · rw [List.mem_filter] at hc3
        have := hc3.2
        rw [List.any_eq_true] at this
        obtain ⟨t, ht, hts⟩ := this
        exact Or.inr (Or.inr ⟨t, ht, hts⟩)
  · rw [if_neg hg] at h
    exact absurd h (by simp)

/-- Concrete original columns for the C10 witness. -/
def origW10 : List String := ["T", "AGE", "GRADE", "REGION"]

/-- Concrete configuration for the C10 witness: `GRADE` is an ordered
categorical, `REGION` an unordered one with two observed values. -/
def cfgW10 : PrepConfig :=
  { target := "T"
    categoricals := [("GRADE", true, ["A", "B"]), ("REGION", false, ["east", "west"])]
    numericals := ["AGE"] }

/-- Witness for C10 at a concrete configuration. -/
theorem prepared_columns_drop_ordered_witness :
    "GRADE" ∉ ["T", "AGE", "REGION_east", "REGION_west"] ∧
    ∀ c ∈ ["T", "AGE", "REGION_east", "REGION_west"],
      c = cfgW10.target ∨ c ∈ cfgW10.numericals ∨
      ∃ t ∈ cfgW10.categoricals, strStartsWith c (t.1 ++ "_") = true :=
  prepared_columns_drop_ordered origW10 cfgW10 "GRADE" ["A", "B"]
    ["T", "AGE", "REGION_east", "REGION_west"] (by decide) (by decide)

end CampaignIQ
